import Mathlib

/-!
Verification of the loop-closing subsystem of an ORB-SLAM2 refactoring
(`src/LoopClosing.cc`).  The development shallowly embeds the data model and
the operations of `LoopDetector`, `LoopCorrector`, `GlobalBA` and
`LoopClosingImpl` as executable Lean definitions and proves the specified
properties about them.

External collaborator results (keyframe database queries, ORB matching,
RANSAC/Sim3 solving, projection search) are passed in as oracle parameters,
mirroring the interfaces in `LoopClosing.cc`.  The geometric carrier types
`CameraPose` and `Sim3` are not part of the provided sources (only their
headers are referenced), so they are modelled from the specification; every
claim about them is purely structural (which composition of the operations
is applied where), so any faithful model of the operations suffices.
-/

namespace ORBSLAM2

/-- Modelled from the spec: a 3-dimensional point / translation vector.
(`Point3D` in the source; the concrete scalar type is irrelevant to the
claims, rationals keep everything executable.) -/
structure Vec3 where
  x : ℚ
  y : ℚ
  z : ℚ
deriving DecidableEq

/-- Modelled from the spec: a 3x3 matrix given by its rows (the rotation
part of a rigid pose or similarity transform). -/
structure Mat3 where
  r1 : Vec3
  r2 : Vec3
  r3 : Vec3
deriving DecidableEq

def Vec3.dot (u v : Vec3) : ℚ := u.x * v.x + u.y * v.y + u.z * v.z

def Vec3.add (u v : Vec3) : Vec3 := ⟨u.x + v.x, u.y + v.y, u.z + v.z⟩

def Vec3.neg (u : Vec3) : Vec3 := ⟨-u.x, -u.y, -u.z⟩

def Vec3.smul (s : ℚ) (u : Vec3) : Vec3 := ⟨s * u.x, s * u.y, s * u.z⟩

def Mat3.mulVec (A : Mat3) (v : Vec3) : Vec3 := ⟨A.r1.dot v, A.r2.dot v, A.r3.dot v⟩

def Mat3.transpose (A : Mat3) : Mat3 :=
  ⟨⟨A.r1.x, A.r2.x, A.r3.x⟩, ⟨A.r1.y, A.r2.y, A.r3.y⟩, ⟨A.r1.z, A.r2.z, A.r3.z⟩⟩

def Mat3.mul (A B : Mat3) : Mat3 :=
  let Bt := B.transpose
  ⟨⟨A.r1.dot Bt.r1, A.r1.dot Bt.r2, A.r1.dot Bt.r3⟩,
   ⟨A.r2.dot Bt.r1, A.r2.dot Bt.r2, A.r2.dot Bt.r3⟩,
   ⟨A.r3.dot Bt.r1, A.r3.dot Bt.r2, A.r3.dot Bt.r3⟩⟩

def Mat3.idMat : Mat3 := ⟨⟨1, 0, 0⟩, ⟨0, 1, 0⟩, ⟨0, 0, 1⟩⟩

/-- Modelled from the spec: a rigid camera pose (rotation + translation);
`CameraPose` in the source (its implementation file is not among the
provided sources). -/
structure CameraPose where
  R : Mat3
  t : Vec3
deriving DecidableEq

/-- Modelled from the spec: rigid pose composition `T1 * T2`. -/
def CameraPose.mul (T1 T2 : CameraPose) : CameraPose :=
  ⟨T1.R.mul T2.R, (T1.R.mulVec T2.t).add T1.t⟩

/-- Modelled from the spec: rigid pose inverse `[R | t]⁻¹ = [Rᵀ | -Rᵀ t]`. -/
def CameraPose.Inverse (T : CameraPose) : CameraPose :=
  let Rt := T.R.transpose
  ⟨Rt, (Rt.mulVec T.t).neg⟩

def CameraPose.idPose : CameraPose := ⟨Mat3.idMat, ⟨0, 0, 0⟩⟩

/-- Modelled from the spec: a similarity transform — rotation, translation,
positive scale; composable, invertible, constructible from a rigid pose with
scale 1; applying it to a point rotates, multiplies by the scale and adds
the translation. (`Sim3` in the source; `Sim3.h` is not among the provided
sources.) -/
structure Sim3 where
  R : Mat3
  t : Vec3
  s : ℚ
deriving DecidableEq

/-- Modelled from the spec: construct a `Sim3` from a rigid pose (scale 1). -/
def Sim3.ofPose (T : CameraPose) : Sim3 := ⟨T.R, T.t, 1⟩

/-- Modelled from the spec: similarity composition. -/
def Sim3.mul (S1 S2 : Sim3) : Sim3 :=
  ⟨S1.R.mul S2.R, (Vec3.smul S1.s (S1.R.mulVec S2.t)).add S1.t, S1.s * S2.s⟩

/-- Modelled from the spec: similarity inverse. -/
def Sim3.Inverse (S : Sim3) : Sim3 :=
  let Rt := S.R.transpose
  let sinv := S.s⁻¹
  ⟨Rt, (Vec3.smul sinv (Rt.mulVec S.t)).neg, sinv⟩

/-- Modelled from the spec: apply a similarity transform to a point. -/
def Sim3.Map (S : Sim3) (p : Vec3) : Vec3 :=
  (Vec3.smul S.s (S.R.mulVec p)).add S.t

def Sim3.Scale (S : Sim3) : ℚ := S.s

def Sim3.idSim : Sim3 := ⟨Mat3.idMat, ⟨0, 0, 0⟩, 1⟩

/-!
## LoopDetector: temporal consistency check

From `LoopDetector::Detect` (`LoopClosing.cc`, lines 190-244).  Keyframes
are identified by their ids (`frameid_t`).  A cached consistent group is a
set of keyframe ids paired with its consistency count
(`using ConsistentGroup = std::pair<std::set<KeyFrame*>, int>`).
-/

/-- A consistent group: a covisibility group (candidate keyframe plus its
covisible neighbors) paired with a consistency count. -/
abbrev ConsistentGroup : Type := Finset ℕ × ℕ

/-- `IsConsistent` from `Detect`: two groups are consistent when they share
at least one keyframe. -/
def IsConsistent (prevGroup currGroup : Finset ℕ) : Bool :=
  decide (∃ kf ∈ currGroup, kf ∈ prevGroup)

/-- One candidate of the consistency loop in `Detect` (lines 206-238).
`curr` is the accumulated `currConsistentGroups`, `found` the shared
`consistentFound` bit vector (indexed like `prev`); returns the updated
accumulators together with the `candidateFound` flag saying whether this
candidate was admitted for Sim3 estimation. -/
def processCandidate (prev : List ConsistentGroup) (minConsistency : ℕ)
    (curr : List ConsistentGroup) (found : List Bool) (currGroup : Finset ℕ) :
    List ConsistentGroup × List Bool × Bool :=
  let ids := (List.range prev.length).filter fun iG =>
    IsConsistent (prev.getD iG (∅, 0)).1 currGroup
  let out := ids.foldl
    (fun (st : List ConsistentGroup × List Bool × Bool) iG =>
      let currConsistency := (prev.getD iG (∅, 0)).2 + 1
      let st1 := if st.2.1.getD iG false then st
        else (st.1 ++ [(currGroup, currConsistency)], st.2.1.set iG true, st.2.2)
      (st1.1, st1.2.1, st1.2.2 || decide (minConsistency ≤ currConsistency)))
    (curr, found, false)
  if ids.isEmpty then (out.1 ++ [(currGroup, 0)], out.2.1, out.2.2)
  else out

/-- The consistency check of `Detect` over all database candidates: returns
the new `currConsistentGroups` cache and the list of admitted candidate
keyframe ids (`candidateKFs`), in order.  Each candidate is given as its id
paired with its covisible-neighbor set; its covisibility group is the
neighbor set with the candidate inserted. -/
def consistencyFoldStep (prev : List ConsistentGroup) (minConsistency : ℕ)
    (st : List ConsistentGroup × List Bool × List ℕ) (cand : ℕ × Finset ℕ) :
    List ConsistentGroup × List Bool × List ℕ :=
  let g := insert cand.1 cand.2
  let r := processCandidate prev minConsistency st.1 st.2.1 g
  (r.1, r.2.1, if r.2.2 then st.2.2 ++ [cand.1] else st.2.2)

def consistencyCheck (prev : List ConsistentGroup) (minConsistency : ℕ)
    (cands : List (ℕ × Finset ℕ)) : List ConsistentGroup × List ℕ :=
  let out := cands.foldl (consistencyFoldStep prev minConsistency)
    ([], List.replicate prev.length false, [])
  (out.1, out.2.2)

/-- A keyframe stream in which every call proposes the same single candidate
(id and covisible set): iterate the detector's consistency check `n` times
starting from an empty cache; returns the cache after `n` calls and the
candidates admitted on the `n`-th call. -/
def detectStream (cand : ℕ × Finset ℕ) : ℕ → List ConsistentGroup × List ℕ
  | 0 => ([], [])
  | n + 1 => consistencyCheck (detectStream cand n).1 3 [cand]

/-!
## LoopDetector: the full Detect pipeline

`LoopDetector::Detect` (`LoopClosing.cc`, lines 157-296).  The external
collaborators are passed as oracles: `connected` gives a candidate's
covisible-neighbor set (`GetConnectedKeyFrames`), `dbCandidates` the result
of `KeyFrameDatabase::DetectLoopCandidates`, `findLoop` the matched keyframe
chosen by `FindLoopInCandidateKFs` from the admitted candidates (or `none`
when all RANSAC candidates are exhausted), and `projectedMatches` the
contents of `loop.matchedPoints` after `SearchByProjection` (one nullable
map-point id per current-keyframe feature slot).
-/

structure DetectOracles where
  connected : ℕ → Finset ℕ
  dbCandidates : List ℕ
  findLoop : List ℕ → Option ℕ
  projectedMatches : List (Option ℕ)

/-- Result of one `Detect` call, together with its observable effects:
`cache` is the detector's `prevConsistentGroups_` after the call,
`dbQueried` records whether `DetectLoopCandidates` was invoked, `notErased`
and `erased` list the keyframe ids receiving `SetNotErase` resp. `SetErase`
calls from inside `Detect`, in order. -/
structure DetectResult where
  found : Bool
  matchedKF : Option ℕ
  cache : List ConsistentGroup
  dbQueried : Bool
  notErased : List ℕ
  erased : List ℕ
deriving DecidableEq

/-- The candidate/covisibility-group list built from the database result. -/
def detectCandidateGroups (o : DetectOracles) : List (ℕ × Finset ℕ) :=
  o.dbCandidates.map fun c => (c, o.connected c)

/-- The candidates admitted for Sim3 estimation (`candidateKFs`). -/
def detectAdmitted (cache : List ConsistentGroup) (o : DetectOracles) : List ℕ :=
  (consistencyCheck cache 3 (detectCandidateGroups o)).2

/-- The new `prevConsistentGroups_` cache after the consistency check. -/
def detectNewCache (cache : List ConsistentGroup) (o : DetectOracles) : List ConsistentGroup :=
  (consistencyCheck cache 3 (detectCandidateGroups o)).1

/-- `LoopDetector::Detect` with `minConsistency_ = 3` (constructor, line 60):
the admission filter (line 164), the empty-candidate early return clearing
the cache (lines 184-188), the consistency check, the Sim3 search
(`FindLoopInCandidateKFs` marks every candidate `SetNotErase` and on failure
`Detect` erases every candidate and the current keyframe, lines 250-257),
and the final acceptance by the count of non-null projected matches
(lines 280-295). -/
def LoopDetector.Detect (currentId lastLoopKFId : ℕ) (cache : List ConsistentGroup)
    (o : DetectOracles) : DetectResult :=
  if currentId < lastLoopKFId + 10 then
    ⟨false, none, cache, false, [], []⟩
  else if o.dbCandidates.isEmpty then
    ⟨false, none, [], true, [], []⟩
  else
    let admitted := detectAdmitted cache o
    let newCache := detectNewCache cache o
    if admitted.isEmpty then
      ⟨false, none, newCache, true, [], []⟩
    else
      match o.findLoop admitted with
      | none => ⟨false, none, newCache, true, admitted, admitted ++ [currentId]⟩
      | some m =>
        if 40 ≤ o.projectedMatches.countP (fun p => p.isSome) then
          ⟨true, some m, newCache, true, admitted, admitted.filter fun c => c ≠ m⟩
        else
          ⟨false, some m, newCache, true, admitted, admitted⟩

/-- The keyframe ids receiving `SetErase` during one main-loop iteration
(`LoopClosingImpl::Run`, lines 726-755) that processes `currentId`: the
erases issued inside `Detect` plus, when no loop was found, the main loop's
`SetErase` on the current keyframe (line 753).  On a hit the main loop runs
`LoopCorrector::Correct`, which contains no `SetErase` call. -/
def runIterationErased (currentId lastLoopKFId : ℕ) (cache : List ConsistentGroup)
    (o : DetectOracles) : List ℕ :=
  let r := LoopDetector.Detect currentId lastLoopKFId cache o
  r.erased ++ (if r.found then [] else [currentId])

/-!
## LoopCorrector: Sim3 propagation

`LoopCorrector::Correct` (`LoopClosing.cc`, lines 549-576): under the
map-update lock, propagate the accepted loop transform `Scw` to the current
keyframe's covisible neighbors.  `pose` gives each keyframe's current rigid
pose (`GetPose`); the two resulting maps model the `KeyFrameAndPose`
std::maps `CorrectedSim3` and `NonCorrectedSim3` (keyed by keyframe id). -/

def propagateStep (currentId : ℕ) (pose : ℕ → CameraPose) (Twc : CameraPose) (Scw : Sim3)
    (acc : (ℕ → Option Sim3) × (ℕ → Option Sim3)) (kf : ℕ) :
    (ℕ → Option Sim3) × (ℕ → Option Sim3) :=
  let Tiw := pose kf
  let corr := if kf = currentId then acc.1
    else fun k => if k = kf then some ((Sim3.ofPose (Tiw.mul Twc)).mul Scw) else acc.1 k
  let noncorr := fun k => if k = kf then some (Sim3.ofPose Tiw) else acc.2 k
  (corr, noncorr)

/-- The propagation loop of `Correct`: `connectedKFs` is the covisible list
with the current keyframe appended (lines 550-552); `CorrectedSim3` starts
from `CorrectedSim3[currentKF] = Scw` (line 555); for every other neighbor
`CorrectedSiw = Sim3(Tiw * Twc) * Scw` is stored and for every neighbor
(current keyframe included) `NonCorrectedSim3[kf] = Sim3(Tiw)`. -/
def propagateSim3 (currentId : ℕ) (pose : ℕ → CameraPose) (Scw : Sim3)
    (neighbors : List ℕ) : (ℕ → Option Sim3) × (ℕ → Option Sim3) :=
  (neighbors ++ [currentId]).foldl
    (propagateStep currentId pose ((pose currentId).Inverse) Scw)
    (fun k => if k = currentId then some Scw else none, fun _ => none)

/-!
## LoopCorrector: map-point correction pass

`LoopCorrector::Correct` (`LoopClosing.cc`, lines 578-600).  Map points are
shared mutable objects; the store is an association list from map-point id
to its state.  `entries` enumerates the `CorrectedSim3` map (a std::map
keyed by `KeyFrame*`, so its iteration order is unspecified — the theorems
hold for every enumeration order); `nonCorr` is `NonCorrectedSim3` (total on
the keys of `CorrectedSim3`); `obs kf` is `kf->GetMapPointMatches()`, one
nullable map-point id per feature slot. -/

structure MPData where
  pos : Vec3
  bad : Bool
  correctedByKF : ℕ
  correctedReference : ℕ
  normalUpdated : Bool
deriving DecidableEq

/-- Look up a map point in the store (first entry with the given id). -/
def findMP (store : List (ℕ × MPData)) (pid : ℕ) : Option MPData :=
  match store with
  | [] => none
  | e :: rest => if e.1 = pid then some e.2 else findMP rest pid

/-- Write through a shared map-point object: every store entry carrying the
id is updated (they all alias the same `MapPoint*`). -/
def setMP (store : List (ℕ × MPData)) (pid : ℕ) (v : MPData) : List (ℕ × MPData) :=
  store.map fun e => if e.1 = pid then (pid, v) else e

/-- The state written by the body of the inner loop (lines 593-599):
position remapped through the correction, stamps `correctedByKF` and
`correctedReference`, and `UpdateNormalAndDepth` recorded. -/
def correctedMP (currentId kfId : ℕ) (correction : Sim3) (d : MPData) : MPData :=
  ⟨correction.Map d.pos, d.bad, currentId, kfId, true⟩

/-- One iteration of the inner loop over `connectedKF->GetMapPointMatches()`
(lines 587-600): skip null slots, bad points and points already stamped with
the current keyframe id; otherwise rewrite the point through `correction`. -/
def correctOne (currentId kfId : ℕ) (correction : Sim3)
    (store : List (ℕ × MPData)) (o : Option ℕ) : List (ℕ × MPData) :=
  match o with
  | none => store
  | some pid =>
    match findMP store pid with
    | none => store
    | some d =>
      if d.bad = true ∨ d.correctedByKF = currentId then store
      else setMP store pid (correctedMP currentId kfId correction d)

/-- Process one `CorrectedSim3` entry (lines 579-600): the correction is
`CorrectedSwi * Siw` with `Siw = NonCorrectedSim3[connectedKF]`. -/
def correctNeighborPoints (currentId : ℕ) (nonCorr : ℕ → Sim3) (obs : ℕ → List (Option ℕ))
    (store : List (ℕ × MPData)) (entry : ℕ × Sim3) : List (ℕ × MPData) :=
  (obs entry.1).foldl (correctOne currentId entry.1 ((entry.2.Inverse).mul (nonCorr entry.1)))
    store

/-- The whole map-point correction pass of `Correct`. -/
def correctMapPoints (currentId : ℕ) (nonCorr : ℕ → Sim3) (obs : ℕ → List (Option ℕ))
    (entries : List (ℕ × Sim3)) (store : List (ℕ × MPData)) : List (ℕ × MPData) :=
  entries.foldl (correctNeighborPoints currentId nonCorr obs) store

/-!
## GlobalBA: map-point correction after global bundle adjustment

`GlobalBA::_Run` (`LoopClosing.cc`, lines 415-446): after the spanning-tree
keyframe pass, every map point is corrected.  `kf` resolves a keyframe id to
its state at that moment (pose already updated to `TcwGBA` by the keyframe
pass, `TcwBefGBA` holding the pre-BA pose). -/

structure GBAKeyFrame where
  pose : CameraPose
  TcwBefGBA : CameraPose
  BAGlobalForKF : ℕ
deriving DecidableEq

structure GBAMapPoint where
  pos : Vec3
  bad : Bool
  BAGlobalForKF : ℕ
  posGBA : Vec3
  refKF : ℕ
deriving DecidableEq

/-- The position remap of lines 434-444: into camera space through the
reference keyframe's pre-BA pose `TcwBefGBA`, back out through the
reference's updated pose. -/
def gbaRemap (ref : GBAKeyFrame) (p : Vec3) : Vec3 :=
  let Xc := (ref.TcwBefGBA.R.mulVec p).add ref.TcwBefGBA.t
  let Twc := ref.pose.Inverse
  (Twc.R.mulVec Xc).add Twc.t

/-- The per-map-point step of the correction loop (lines 416-446). -/
def GlobalBA.correctMapPoint (loopKFId : ℕ) (kf : ℕ → GBAKeyFrame)
    (mp : GBAMapPoint) : GBAMapPoint :=
  if mp.bad = true then mp
  else if mp.BAGlobalForKF = loopKFId then { mp with pos := mp.posGBA }
  else
    let referenceKF := kf mp.refKF
    if referenceKF.BAGlobalForKF ≠ loopKFId then mp
    else
      let Xc := (referenceKF.TcwBefGBA.R.mulVec mp.pos).add referenceKF.TcwBefGBA.t
      let Twc := referenceKF.pose.Inverse
      { mp with pos := (Twc.R.mulVec Xc).add Twc.t }

/-- The pass over `map_->GetAllMapPoints()`. -/
def GlobalBA.correctAllMapPoints (loopKFId : ℕ) (kf : ℕ → GBAKeyFrame)
    (mps : List GBAMapPoint) : List GBAMapPoint :=
  mps.map (GlobalBA.correctMapPoint loopKFId kf)

/-!
## GlobalBA: task state machine

`GlobalBA` (`LoopClosing.cc`, lines 349-499).  The mutable state guarded by
`mutexGBA_` is `running_`, `finished_`, `stop_` and `fullBAIdx_`.  A worker
captures `fullBAIdx_` when `_Run` starts (line 365); its epilogue
(lines 372-457) runs under the lock once the bundle adjustment returns. -/

structure GBAState where
  running : Bool
  finished : Bool
  stop : Bool
  fullBAIdx : ℤ
deriving DecidableEq

/-- Effects on shared state outside the task flags, performed by a
completing worker: keyframe pose writes, map-point position writes and the
map's big-change counter bump (lines 390-450). -/
structure GBAEffects where
  wroteKeyFramePoses : Bool
  wroteMapPointPositions : Bool
  bumpedBigChange : Bool
deriving DecidableEq

def GBAEffects.none : GBAEffects := ⟨false, false, false⟩

/-- `GlobalBA::Run` (lines 460-466): mark running, clear finished and stop,
spawn the worker (the spawn itself does not change `fullBAIdx_`). -/
def GlobalBA.runStart (s : GBAState) : GBAState :=
  { s with running := true, finished := false, stop := false }

/-- `GlobalBA::Stop` (lines 468-475): set the stop flag, increment
`fullBAIdx_`, detach the worker thread (the detach touches no shared
state). -/
def GlobalBA.stopTask (s : GBAState) : GBAState :=
  { s with stop := true, fullBAIdx := s.fullBAIdx + 1 }

/-- The worker epilogue (lines 372-457): under `mutexGBA_`, a stale captured
index returns immediately (line 374-375) touching nothing; otherwise, if the
stop flag is clear the map update runs (modelled by its effects) and in
either non-stale case `finished_`/`running_` are written (lines 455-456). -/
def GlobalBA.workerEpilogue (captured : ℤ) (s : GBAState) : GBAState × GBAEffects :=
  if captured ≠ s.fullBAIdx then (s, GBAEffects.none)
  else if s.stop = true then ({ s with finished := true, running := false }, GBAEffects.none)
  else ({ s with finished := true, running := false }, ⟨true, true, true⟩)

inductive GBAEvent where
  | runStart
  | stopTask
  | workerComplete (captured : ℤ)
deriving DecidableEq

def GBAStep (s : GBAState) : GBAEvent → GBAState
  | GBAEvent.runStart => GlobalBA.runStart s
  | GBAEvent.stopTask => GlobalBA.stopTask s
  | GBAEvent.workerComplete c => (GlobalBA.workerEpilogue c s).1

/-- A trace containing no `Run` call and in which every worker completion is
stale at the moment it is processed (after a `Stop`, the only outstanding
worker captured an index older than `fullBAIdx_`). -/
def staleTrace (s : GBAState) : List GBAEvent → Prop
  | [] => True
  | e :: es =>
    e ≠ GBAEvent.runStart ∧
    (∀ c, e = GBAEvent.workerComplete c → c ≠ s.fullBAIdx) ∧
    staleTrace (GBAStep s e) es

/-!
## LoopClosingImpl: queue, reset and main loop

`LoopClosingImpl` (`LoopClosing.cc`, lines 695-869).  The state touched by
the reset protocol: the inbound keyframe queue, `lastLoopKFId_` and the
`resetRequested_` flag.  Events model `InsertKeyFrame` (line 768), one
main-loop keyframe processing step (lines 726-755, which updates
`lastLoopKFId_` on a detector hit), `RequestReset` raising the flag
(lines 777-780), and `ResetIfRequested` (lines 821-830). -/

structure LCState where
  queue : List ℕ
  lastLoopKFId : ℕ
  resetRequested : Bool
deriving DecidableEq

inductive LCEvent where
  | insertKeyFrame (id : ℕ)
  | processKeyFrame (found : Bool)
  | requestResetFlag
  | resetIfRequested
deriving DecidableEq

def LCStep (s : LCState) : LCEvent → LCState
  | LCEvent.insertKeyFrame id =>
    if id ≠ 0 then { s with queue := s.queue ++ [id] } else s
  | LCEvent.processKeyFrame found =>
    match s.queue with
    | [] => s
    | kf :: rest =>
      { s with queue := rest, lastLoopKFId := if found then kf else s.lastLoopKFId }
  | LCEvent.requestResetFlag => { s with resetRequested := true }
  | LCEvent.resetIfRequested =>
    if s.resetRequested = true then ⟨[], 0, false⟩ else s

/-!
## Concrete example inputs

Small concrete instances used to evaluate the theorems on explicit data. -/

/-- An oracle set with an empty database result. -/
def exEmptyOracles : DetectOracles :=
  { connected := fun _ => ∅, dbCandidates := [], findLoop := fun _ => none,
    projectedMatches := [] }

/-- An oracle set driving `Detect` to an accepted loop: one database
candidate (keyframe 5 with neighbor 6), a solver that matches the first
admitted candidate, and 40 non-null projected matches. -/
def exAcceptOracles : DetectOracles :=
  { connected := fun _ => {6}, dbCandidates := [5], findLoop := fun l => l.head?,
    projectedMatches := List.replicate 40 (some 0) }

/-- A cache in which the group `{5, 6}` has already been consistent twice. -/
def exCache : List ConsistentGroup := [({5, 6}, 2)]

/-- An oracle set whose projection step yields only 39 matches. -/
def exRejectOracles : DetectOracles :=
  { connected := fun _ => {6}, dbCandidates := [5], findLoop := fun l => l.head?,
    projectedMatches := List.replicate 39 (some 0) }

/-!
## Theorems
-/

/-- C2: when the current keyframe id is within 10 of the last accepted loop
id, `Detect` returns "no loop" immediately — no database query, no cache
update, no erase traffic; and whenever `Detect` reports a loop, the current
keyframe id is at least `lastLoopKFId + 10`. -/
theorem loopDetector_admission_filter (currentId lastLoopKFId : ℕ)
    (cache : List ConsistentGroup) (o : DetectOracles) :
    (currentId < lastLoopKFId + 10 →
      LoopDetector.Detect currentId lastLoopKFId cache o =
        ⟨false, none, cache, false, [], []⟩) ∧
    ((LoopDetector.Detect currentId lastLoopKFId cache o).found = true →
      lastLoopKFId + 10 ≤ currentId) := by
  constructor
  · intro h
    simp [LoopDetector.Detect, h]
  · intro h
    by_contra hlt
    push_neg at hlt
    simp [LoopDetector.Detect, hlt] at h

/-- Witness for C2: a too-early revisit (id 5 with the last loop at id 0)
returns "no loop" untouched, and the concrete accepted loop at id 20
satisfies the distance bound. -/
theorem loopDetector_admission_filter_witness :
    LoopDetector.Detect 5 0 [] exEmptyOracles =
      ⟨false, none, [], false, [], []⟩ ∧ (0 : ℕ) + 10 ≤ 20 := by
  constructor
  · exact (loopDetector_admission_filter 5 0 [] exEmptyOracles).1 (by decide)
  · exact (loopDetector_admission_filter 20 0 exCache exAcceptOracles).2 (by decide)

/-- C4: in the map-point pass of `GlobalBA::_Run`, a bad point is skipped;
a non-bad point stamped with the loop keyframe id receives `posGBA`; an
unstamped point whose reference keyframe is stamped is mapped into camera
space through the reference's saved pre-BA pose `TcwBefGBA` and back out
through the reference's updated pose; and an unstamped point whose
reference keyframe is also unstamped is left unchanged. -/
theorem globalBA_map_point_correction_spec (loopKFId : ℕ) (kf : ℕ → GBAKeyFrame)
    (mps : List GBAMapPoint) (mp : GBAMapPoint) (hmem : mp ∈ mps) :
    GlobalBA.correctMapPoint loopKFId kf mp ∈ GlobalBA.correctAllMapPoints loopKFId kf mps ∧
    (mp.bad = true → GlobalBA.correctMapPoint loopKFId kf mp = mp) ∧
    (mp.bad = false → mp.BAGlobalForKF = loopKFId →
      GlobalBA.correctMapPoint loopKFId kf mp = { mp with pos := mp.posGBA }) ∧
    (mp.bad = false → mp.BAGlobalForKF ≠ loopKFId →
      (kf mp.refKF).BAGlobalForKF = loopKFId →
      GlobalBA.correctMapPoint loopKFId kf mp =
        { mp with pos := gbaRemap (kf mp.refKF) mp.pos }) ∧
    (mp.bad = false → mp.BAGlobalForKF ≠ loopKFId →
      (kf mp.refKF).BAGlobalForKF ≠ loopKFId →
      GlobalBA.correctMapPoint loopKFId kf mp = mp) := by
  refine ⟨List.mem_map_of_mem _ hmem, ?_, ?_, ?_, ?_⟩
  · intro hbad
    simp [GlobalBA.correctMapPoint, hbad]
  · intro hbad hstamp
    simp [GlobalBA.correctMapPoint, hbad, hstamp]
  · intro hbad hstamp href
    simp [GlobalBA.correctMapPoint, gbaRemap, hbad, hstamp, href]
  · intro hbad hstamp href
    simp [GlobalBA.correctMapPoint, hbad, hstamp, href]

/-- Witness for C4: a concrete non-bad map point whose reference keyframe is
unstamped for loop id 3 is left unchanged by the pass (the culled-reference
seed scenario). -/
theorem globalBA_map_point_correction_witness :
    GlobalBA.correctMapPoint 3 (fun _ => ⟨CameraPose.idPose, CameraPose.idPose, 0⟩)
      ⟨⟨1, 2, 3⟩, false, 0, ⟨4, 5, 6⟩, 0⟩ = ⟨⟨1, 2, 3⟩, false, 0, ⟨4, 5, 6⟩, 0⟩ := by
  exact (globalBA_map_point_correction_spec 3 (fun _ => ⟨CameraPose.idPose, CameraPose.idPose, 0⟩)
    [⟨⟨1, 2, 3⟩, false, 0, ⟨4, 5, 6⟩, 0⟩] ⟨⟨1, 2, 3⟩, false, 0, ⟨4, 5, 6⟩, 0⟩
    (by simp)).2.2.2.2 rfl (by decide) (by decide)

/-- C6: a worker whose captured index is stale when the bundle adjustment
returns changes nothing — neither the task flags nor any shared map state —
and `Stop` makes the running worker's captured index stale by incrementing
`fullBAIdx_` while raising the stop flag. -/
theorem globalBA_stale_worker_no_mutation (s : GBAState) (captured : ℤ) :
    (captured ≠ s.fullBAIdx →
      GlobalBA.workerEpilogue captured s = (s, GBAEffects.none)) ∧
    (GlobalBA.stopTask s).stop = true ∧
    (GlobalBA.stopTask s).fullBAIdx = s.fullBAIdx + 1 ∧
    (captured = s.fullBAIdx → captured ≠ (GlobalBA.stopTask s).fullBAIdx) := by
  refine ⟨fun h => ?_, rfl, rfl, fun h => ?_⟩
  · simp [GlobalBA.workerEpilogue, h]
  · simp [GlobalBA.stopTask, h]

/-- Witness for C6: the stale completion of a concrete running task leaves
the state untouched and produces no map effects. -/
theorem globalBA_stale_worker_no_mutation_witness :
    GlobalBA.workerEpilogue 0 ⟨true, false, true, 1⟩ =
      (⟨true, false, true, 1⟩, GBAEffects.none) := by
  exact (globalBA_stale_worker_no_mutation ⟨true, false, true, 1⟩ 0).1 (by decide)

/-- Helper for C9: along any trace free of `Run` calls in which every worker
completion is stale when processed, the `running_`/`finished_` flags are
frozen. -/
theorem staleTrace_preserves_flags (evs : List GBAEvent) :
    ∀ s : GBAState, s.running = true → s.finished = false → staleTrace s evs →
      (evs.foldl GBAStep s).running = true ∧ (evs.foldl GBAStep s).finished = false := by
  induction evs with
  | nil => exact fun s h1 h2 _ => ⟨h1, h2⟩
  | cons e es ih =>
    intro s h1 h2 htr
    obtain ⟨hne, hstale, htr2⟩ := htr
    have hstep : (GBAStep s e).running = true ∧ (GBAStep s e).finished = false := by
      cases e with
      | runStart => exact absurd rfl hne
      | stopTask => exact ⟨by simp [GBAStep, GlobalBA.stopTask, h1],
          by simp [GBAStep, GlobalBA.stopTask, h2]⟩
      | workerComplete c =>
        have hc : c ≠ s.fullBAIdx := hstale c rfl
        constructor
        · simp [GBAStep, GlobalBA.workerEpilogue, hc, h1]
        · simp [GBAStep, GlobalBA.workerEpilogue, hc, h2]
    exact ih (GBAStep s e) hstep.1 hstep.2 htr2

/-- C9: after `Stop` aborts a running task, `running_` stays true and
`finished_` stays false: the aborted worker's completion is stale (its
captured index predates the increment) and returns without touching the
flags, and no event other than a new `Run` or a non-stale completion writes
them. -/
theorem globalBA_aborted_flags_stuck (s : GBAState) (evs : List GBAEvent)
    (htr : staleTrace (GlobalBA.stopTask (GlobalBA.runStart s)) evs) :
    (GlobalBA.stopTask (GlobalBA.runStart s)).running = true ∧
    (GlobalBA.stopTask (GlobalBA.runStart s)).finished = false ∧
    GlobalBA.workerEpilogue s.fullBAIdx (GlobalBA.stopTask (GlobalBA.runStart s)) =
      (GlobalBA.stopTask (GlobalBA.runStart s), GBAEffects.none) ∧
    (evs.foldl GBAStep (GlobalBA.stopTask (GlobalBA.runStart s))).running = true ∧
    (evs.foldl GBAStep (GlobalBA.stopTask (GlobalBA.runStart s))).finished = false := by
  have hrun : (GlobalBA.stopTask (GlobalBA.runStart s)).running = true := rfl
  have hfin : (GlobalBA.stopTask (GlobalBA.runStart s)).finished = false := rfl
  have hidx : s.fullBAIdx ≠ (GlobalBA.stopTask (GlobalBA.runStart s)).fullBAIdx := by
    simp [GlobalBA.stopTask, GlobalBA.runStart]
  have hfold := staleTrace_preserves_flags evs _ hrun hfin htr
  refine ⟨hrun, hfin, ?_, hfold.1, hfold.2⟩
  simp [GlobalBA.workerEpilogue, hidx]

/-- Witness for C9: from an idle task, `Run` then `Stop` leaves the flags
reporting running and unfinished, and they survive the aborted worker's
stale completion followed by another `Stop`. -/
theorem globalBA_aborted_flags_stuck_witness :
    (([GBAEvent.workerComplete 0, GBAEvent.stopTask].foldl GBAStep
        (GlobalBA.stopTask (GlobalBA.runStart ⟨false, true, false, 0⟩))).running = true) ∧
    (([GBAEvent.workerComplete 0, GBAEvent.stopTask].foldl GBAStep
        (GlobalBA.stopTask (GlobalBA.runStart ⟨false, true, false, 0⟩))).finished = false) := by
  have h := globalBA_aborted_flags_stuck ⟨false, true, false, 0⟩
    [GBAEvent.workerComplete 0, GBAEvent.stopTask]
    (by
      refine ⟨by simp, ?_, by simp, ?_, trivial⟩
      · intro c hc
        cases hc
        decide
      · intro c hc
        cases hc)
  exact ⟨h.2.2.2.1, h.2.2.2.2⟩

/-- C8: processing a pending reset empties the inbound queue, zeroes
`lastLoopKFId_` and clears the flag, whatever was queued; and while a reset
is pending, the only transition that clears the flag — the one
`RequestReset`'s busy-wait observes before returning — is exactly that
processing step. -/
theorem loopClosing_reset_processing_spec (s : LCState) :
    (s.resetRequested = true →
      LCStep s LCEvent.resetIfRequested = ⟨[], 0, false⟩) ∧
    (∀ e, s.resetRequested = true → (LCStep s e).resetRequested = false →
      e = LCEvent.resetIfRequested ∧ LCStep s e = ⟨[], 0, false⟩) := by
  constructor
  · intro h
    simp [LCStep, h]
  · intro e h hcl
    cases e with
    | insertKeyFrame id =>
      by_cases hid : id ≠ 0 <;> simp [LCStep, hid, h] at hcl
    | processKeyFrame found =>
      cases hq : s.queue <;> simp [LCStep, hq, h] at hcl
    | requestResetFlag =>
      simp [LCStep] at hcl
    | resetIfRequested =>
      exact ⟨rfl, by simp [LCStep, h]⟩

/-- Witness for C8: a pending reset with three queued keyframes is processed
into the empty queue, `lastLoopKFId = 0` and a cleared flag. -/
theorem loopClosing_reset_processing_witness :
    LCStep ⟨[1, 2, 3], 7, true⟩ LCEvent.resetIfRequested = ⟨[], 0, false⟩ := by
  exact (loopClosing_reset_processing_spec ⟨[1, 2, 3], 7, true⟩).1 rfl

/-- A covisibility group always shares a keyframe with itself (the
candidate belongs to its own group). -/
theorem IsConsistent_insert_self (a : ℕ) (E : Finset ℕ) :
    IsConsistent (insert a E) (insert a E) = true := by
  simp only [IsConsistent, decide_eq_true_eq]
  exact ⟨a, Finset.mem_insert_self a E, Finset.mem_insert_self a E⟩

/-- First sighting of a candidate group: stored in the cache with
consistency count 0, candidate not admitted. -/
theorem consistencyCheck_single_empty (a : ℕ) (E : Finset ℕ) :
    consistencyCheck [] 3 [(a, E)] = ([(insert a E, 0)], []) := by
  simp [consistencyCheck, consistencyFoldStep, processCandidate]

/-- Re-sighting a cached group with count `n`: the cache entry becomes
`n + 1` and the candidate is admitted exactly when `n + 1` reaches the
consistency threshold 3. -/
theorem consistencyCheck_single_repeat (a : ℕ) (E : Finset ℕ) (n : ℕ) :
    consistencyCheck [(insert a E, n)] 3 [(a, E)] =
      ([(insert a E, n + 1)], if 3 ≤ n + 1 then [a] else []) := by
  simp [consistencyCheck, consistencyFoldStep, processCandidate,
    IsConsistent_insert_self, List.range_succ]

/-- C1 counterexample: three consecutive keyframes proposing the same
candidate covisibility group (candidate 1, neighbor 2) do NOT get the
candidate admitted on the third keyframe — the cached counts run 0, 1, 2 —
and the very same stream admits it on the fourth. -/
theorem loopDetector_third_consecutive_counterexample :
    (detectStream (1, ({2} : Finset ℕ)) 3).2 = [] ∧
    (detectStream (1, ({2} : Finset ℕ)) 3).1 = [(insert 1 {2}, 2)] ∧
    (detectStream (1, ({2} : Finset ℕ)) 4).2 = [1] := by
  refine ⟨by decide, by decide, by decide⟩

/-- C1 (amended): in a keyframe stream whose every call proposes the same
candidate covisibility group, starting from an empty consistent-groups
cache, after the `n`-th call the cache holds the group with count `n - 1`
(a first-seen group is stored with count 0 and each re-sighting adds the
cached predecessor's count plus 1), and the candidate is admitted exactly
from the fourth such keyframe on — the first call on which a current group
reaches consistency count ≥ 3 — and never earlier. -/
theorem loopDetector_admits_on_fourth_consecutive (a : ℕ) (E : Finset ℕ) (n : ℕ)
    (hn : 1 ≤ n) :
    detectStream (a, E) n =
      ([(insert a E, n - 1)], if 4 ≤ n then [a] else []) := by
  induction n with
  | zero => omega
  | succ m ih =>
    by_cases hm : 1 ≤ m
    · have h := ih hm
      show consistencyCheck (detectStream (a, E) m).1 3 [(a, E)] = _
      rw [h]
      have hm1 : m - 1 + 1 = m := by omega
      rw [consistencyCheck_single_repeat, hm1]
      have hsub : m + 1 - 1 = m := by omega
      rw [hsub]
      rcases le_or_lt 3 m with h3 | h3
      · rw [if_pos h3, if_pos (by omega)]
      · rw [if_neg (by omega), if_neg (by omega)]
    · have hm0 : m = 0 := by omega
      subst hm0
      show consistencyCheck (detectStream (a, E) 0).1 3 [(a, E)] = _
      rw [show (detectStream (a, E) 0).1 = [] from rfl, consistencyCheck_single_empty]
      rfl

/-- Witness for C1 (amended): the concrete stream repeating candidate 1
with neighbor 2, evaluated on its fourth call. -/
theorem loopDetector_admits_on_fourth_consecutive_witness :
    detectStream (1, ({2} : Finset ℕ)) 4 = ([(insert 1 {2}, 3)], [1]) := by
  have h := loopDetector_admits_on_fourth_consecutive 1 ({2} : Finset ℕ) 4 (by decide)
  rw [h]
  decide

/-- C7: once `Detect` reaches the extended-neighborhood projection step
(the Sim3 search returned a matched keyframe `m`), the loop is accepted if
and only if at least 40 matched slots are non-null; on acceptance every
admitted candidate except `m` receives `SetErase`, and on rejection `Detect`
returns "no loop" with `SetErase` issued on every admitted candidate, so
every keyframe that received `SetNotErase` receives `SetErase`. -/
theorem loopDetector_projection_acceptance_spec (currentId lastLoopKFId : ℕ)
    (cache : List ConsistentGroup) (o : DetectOracles) (m : ℕ)
    (hguard : ¬ currentId < lastLoopKFId + 10)
    (hdb : o.dbCandidates.isEmpty = false)
    (hadm : (detectAdmitted cache o).isEmpty = false)
    (hfind : o.findLoop (detectAdmitted cache o) = some m) :
    ((LoopDetector.Detect currentId lastLoopKFId cache o).found = true ↔
      40 ≤ o.projectedMatches.countP fun p => p.isSome) ∧
    (40 ≤ o.projectedMatches.countP (fun p => p.isSome) →
      (LoopDetector.Detect currentId lastLoopKFId cache o).erased =
        (detectAdmitted cache o).filter fun c => c ≠ m) ∧
    (¬ 40 ≤ o.projectedMatches.countP (fun p => p.isSome) →
      (LoopDetector.Detect currentId lastLoopKFId cache o).found = false ∧
      (LoopDetector.Detect currentId lastLoopKFId cache o).erased =
        detectAdmitted cache o ∧
      (LoopDetector.Detect currentId lastLoopKFId cache o).notErased =
        (LoopDetector.Detect currentId lastLoopKFId cache o).erased) := by
  by_cases hc : 40 ≤ o.projectedMatches.countP fun p => p.isSome
  · refine ⟨?_, ?_, ?_⟩ <;>
      simp [LoopDetector.Detect, hguard, hdb, hadm, hfind, hc]
  · refine ⟨?_, ?_, ?_⟩ <;>
      simp [LoopDetector.Detect, hguard, hdb, hadm, hfind, hc]

/-- Witness for C7: the concrete scenario with 40 projected matches is
accepted; with 39 it is rejected and the single admitted candidate is
released. -/
theorem loopDetector_projection_acceptance_witness :
    (LoopDetector.Detect 20 0 exCache exAcceptOracles).found = true ∧
    (LoopDetector.Detect 20 0 exCache exRejectOracles).found = false ∧
    (LoopDetector.Detect 20 0 exCache exRejectOracles).erased =
      detectAdmitted exCache exRejectOracles := by
  refine ⟨?_, ?_, ?_⟩
  · exact (loopDetector_projection_acceptance_spec 20 0 exCache exAcceptOracles 5
      (by decide) (by decide) (by decide) (by decide)).1.mpr (by decide)
  · exact ((loopDetector_projection_acceptance_spec 20 0 exCache exRejectOracles 5
      (by decide) (by decide) (by decide) (by decide)).2.2 (by decide)).1
  · exact ((loopDetector_projection_acceptance_spec 20 0 exCache exRejectOracles 5
      (by decide) (by decide) (by decide) (by decide)).2.2 (by decide)).2.1

/-- One propagation step, corrected map: only the processed keyframe's
entry changes, and only when it is not the current keyframe. -/
theorem propagateStep_fst (currentId : ℕ) (pose : ℕ → CameraPose) (Twc : CameraPose)
    (Scw : Sim3) (acc : (ℕ → Option Sim3) × (ℕ → Option Sim3)) (b k : ℕ) :
    (propagateStep currentId pose Twc Scw acc b).1 k =
      if k = b ∧ b ≠ currentId then some ((Sim3.ofPose ((pose b).mul Twc)).mul Scw)
      else acc.1 k := by
  by_cases hb : b = currentId
  · simp [propagateStep, hb]
  · simp [propagateStep, hb]

/-- One propagation step, non-corrected map: the processed keyframe's entry
becomes its own pose as a `Sim3`. -/
theorem propagateStep_snd (currentId : ℕ) (pose : ℕ → CameraPose) (Twc : CameraPose)
    (Scw : Sim3) (acc : (ℕ → Option Sim3) × (ℕ → Option Sim3)) (b k : ℕ) :
    (propagateStep currentId pose Twc Scw acc b).2 k =
      if k = b then some (Sim3.ofPose (pose b)) else acc.2 k := rfl

/-- Characterization of the propagation fold, corrected map. -/
theorem propagateFold_fst (currentId : ℕ) (pose : ℕ → CameraPose) (Twc : CameraPose)
    (Scw : Sim3) (l : List ℕ) :
    ∀ (acc : (ℕ → Option Sim3) × (ℕ → Option Sim3)) (k : ℕ),
      (l.foldl (propagateStep currentId pose Twc Scw) acc).1 k =
        if k ≠ currentId ∧ k ∈ l then some ((Sim3.ofPose ((pose k).mul Twc)).mul Scw)
        else acc.1 k := by
  induction l with
  | nil =>
    intro acc k
    simp
  | cons b t ih =>
    intro acc k
    rw [List.foldl_cons, ih]
    by_cases ht : k ≠ currentId ∧ k ∈ t
    · rw [if_pos ht, if_pos ⟨ht.1, List.mem_cons_of_mem b ht.2⟩]
    · rw [if_neg ht, propagateStep_fst]
      by_cases hkb : k = b ∧ b ≠ currentId
      · have hk := hkb.1
        subst hk
        rw [if_pos ⟨rfl, hkb.2⟩, if_pos ⟨hkb.2, List.mem_cons_self k t⟩]
      · have hneg : ¬(k ≠ currentId ∧ k ∈ b :: t) := by
          intro hcon
          rcases List.mem_cons.mp hcon.2 with h | h
          · exact hkb ⟨h, by rw [← h]; exact hcon.1⟩
          · exact ht ⟨hcon.1, h⟩
        rw [if_neg hkb, if_neg hneg]

/-- Characterization of the propagation fold, non-corrected map. -/
theorem propagateFold_snd (currentId : ℕ) (pose : ℕ → CameraPose) (Twc : CameraPose)
    (Scw : Sim3) (l : List ℕ) :
    ∀ (acc : (ℕ → Option Sim3) × (ℕ → Option Sim3)) (k : ℕ),
      (l.foldl (propagateStep currentId pose Twc Scw) acc).2 k =
        if k ∈ l then some (Sim3.ofPose (pose k)) else acc.2 k := by
  induction l with
  | nil =>
    intro acc k
    simp
  | cons b t ih =>
    intro acc k
    rw [List.foldl_cons, ih]
    by_cases ht : k ∈ t
    · rw [if_pos ht, if_pos (List.mem_cons_of_mem b ht)]
    · rw [if_neg ht, propagateStep_snd]
      by_cases hb : k = b
      · subst hb
        rw [if_pos rfl, if_pos (List.mem_cons_self k t)]
      · rw [if_neg hb, if_neg (by simp [List.mem_cons, hb, ht])]

/-- C3: under the map-update lock, the corrected-pose map receives
`CorrectedSim3[N] = Sim3(T_N * T_C⁻¹) * Scw` for every covisible neighbor
`N ≠ C` of the current keyframe `C`, `CorrectedSim3[C] = Scw`, and
`NonCorrectedSim3[N] = Sim3(T_N)` for every processed keyframe, the current
one included. -/
theorem loopCorrector_propagate_sim3_spec (currentId : ℕ) (pose : ℕ → CameraPose)
    (Scw : Sim3) (neighbors : List ℕ) :
    (propagateSim3 currentId pose Scw neighbors).1 currentId = some Scw ∧
    (∀ N ∈ neighbors ++ [currentId], N ≠ currentId →
      (propagateSim3 currentId pose Scw neighbors).1 N =
        some ((Sim3.ofPose ((pose N).mul ((pose currentId).Inverse))).mul Scw)) ∧
    (∀ N ∈ neighbors ++ [currentId],
      (propagateSim3 currentId pose Scw neighbors).2 N = some (Sim3.ofPose (pose N))) := by
  unfold propagateSim3
  refine ⟨?_, ?_, ?_⟩
  · rw [propagateFold_fst]
    simp
  · intro N hN hne
    rw [propagateFold_fst]
    rw [if_pos ⟨hne, hN⟩]
  · intro N hN
    rw [propagateFold_snd]
    rw [if_pos hN]

/-- Witness for C3: a concrete propagation (current keyframe 2 with single
neighbor 1, identity poses and loop transform), evaluated at the neighbor,
the current keyframe, and the non-corrected map. -/
theorem loopCorrector_propagate_sim3_witness :
    (propagateSim3 2 (fun _ => CameraPose.idPose) Sim3.idSim [1]).1 1 =
      some ((Sim3.ofPose (CameraPose.idPose.mul (CameraPose.idPose.Inverse))).mul
        Sim3.idSim) ∧
    (propagateSim3 2 (fun _ => CameraPose.idPose) Sim3.idSim [1]).1 2 = some Sim3.idSim ∧
    (propagateSim3 2 (fun _ => CameraPose.idPose) Sim3.idSim [1]).2 2 =
      some (Sim3.ofPose CameraPose.idPose) := by
  have h := loopCorrector_propagate_sim3_spec 2 (fun _ => CameraPose.idPose) Sim3.idSim [1]
  exact ⟨h.2.1 1 (by simp) (by decide), h.1, h.2.2 2 (by simp)⟩

/-- The admitted-candidates accumulator of the consistency fold only ever
grows by ids of processed candidates. -/
theorem consistencyFold_admitted_subset (prev : List ConsistentGroup) (mc : ℕ)
    (cands : List (ℕ × Finset ℕ)) :
    ∀ (init : List ConsistentGroup × List Bool × List ℕ) (x : ℕ),
      x ∈ (cands.foldl (consistencyFoldStep prev mc) init).2.2 →
      x ∈ init.2.2 ∨ x ∈ cands.map Prod.fst := by
  induction cands with
  | nil =>
    intro init x hx
    exact Or.inl hx
  | cons c t ih =>
    intro init x hx
    rw [List.foldl_cons] at hx
    rcases ih (consistencyFoldStep prev mc init c) x hx with h | h
    · simp only [consistencyFoldStep] at h
      split at h
      · rcases List.mem_append.mp h with h1 | h1
        · exact Or.inl h1
        · right
          simp only [List.mem_singleton] at h1
          subst h1
          simp
      · exact Or.inl h
    · right
      rw [List.map_cons]
      exact List.mem_cons_of_mem _ h

/-- Every candidate admitted for Sim3 estimation came from the database
query result. -/
theorem detectAdmitted_subset_db (cache : List ConsistentGroup) (o : DetectOracles) :
    ∀ x ∈ detectAdmitted cache o, x ∈ o.dbCandidates := by
  intro x hx
  unfold detectAdmitted consistencyCheck at hx
  rcases consistencyFold_admitted_subset cache 3 (detectCandidateGroups o) _ x hx with h | h
  · simp at h
  · simp only [detectCandidateGroups, List.map_map] at h
    simpa using h

/-- C10: on an accepted loop, no `SetErase` of the whole main-loop
iteration — the detector's internal releases plus the main loop's own
miss-path release — targets the current keyframe or the matched keyframe
(the corrector contains no `SetErase` call at all), so both keep their
`SetNotErase` culling protection.  The hypothesis reflects the database
contract: `DetectLoopCandidates` never returns the querying keyframe. -/
theorem acceptedLoop_preserves_culling_holds (currentId lastLoopKFId : ℕ)
    (cache : List ConsistentGroup) (o : DetectOracles)
    (hcur : currentId ∉ o.dbCandidates)
    (hfound : (LoopDetector.Detect currentId lastLoopKFId cache o).found = true) :
    currentId ∉ runIterationErased currentId lastLoopKFId cache o ∧
    (∀ m, (LoopDetector.Detect currentId lastLoopKFId cache o).matchedKF = some m →
      m ∉ runIterationErased currentId lastLoopKFId cache o) := by
  by_cases h1 : currentId < lastLoopKFId + 10
  · simp [LoopDetector.Detect, h1] at hfound
  by_cases h2 : o.dbCandidates.isEmpty
  · simp [LoopDetector.Detect, h1, h2] at hfound
  by_cases h3 : (detectAdmitted cache o).isEmpty
  · simp [LoopDetector.Detect, h1, h2, h3] at hfound
  rcases hm0 : o.findLoop (detectAdmitted cache o) with _ | m0
  · simp [LoopDetector.Detect, h1, h2, h3, hm0] at hfound
  by_cases h4 : 40 ≤ o.projectedMatches.countP fun p => p.isSome
  case neg => simp [LoopDetector.Detect, h1, h2, h3, hm0, h4] at hfound
  have hD : LoopDetector.Detect currentId lastLoopKFId cache o =
      ⟨true, some m0, detectNewCache cache o, true, detectAdmitted cache o,
        (detectAdmitted cache o).filter fun c => c ≠ m0⟩ := by
    simp [LoopDetector.Detect, h1, h2, h3, hm0, h4]
  have herased : runIterationErased currentId lastLoopKFId cache o =
      (detectAdmitted cache o).filter fun c => c ≠ m0 := by
    simp [runIterationErased, hD]
  constructor
  · rw [herased]
    intro hmem
    exact hcur (detectAdmitted_subset_db cache o currentId (List.mem_of_mem_filter hmem))
  · intro m hm
    rw [hD] at hm
    have hmm : m = m0 := (Option.some.inj hm).symm
    subst hmm
    rw [herased]
    intro hmem
    have hne := (List.mem_filter.mp hmem).2
    simp at hne

/-- Witness for C10: in the concrete accepted-loop scenario (current
keyframe 20, matched keyframe 5), neither keyframe 20 nor keyframe 5 is
released during the iteration. -/
theorem acceptedLoop_preserves_culling_holds_witness :
    20 ∉ runIterationErased 20 0 exCache exAcceptOracles ∧
    5 ∉ runIterationErased 20 0 exCache exAcceptOracles := by
  have h := acceptedLoop_preserves_culling_holds 20 0 exCache exAcceptOracles
    (by decide) (by decide)
  exact ⟨h.1, h.2 5 (by decide)⟩

/-- A successful store lookup names an entry of the store. -/
theorem findMP_mem (st : List (ℕ × MPData)) (pid : ℕ) (d : MPData)
    (h : findMP st pid = some d) : (pid, d) ∈ st := by
  induction st with
  | nil => simp [findMP] at h
  | cons e rest ih =>
    rw [findMP] at h
    by_cases he : e.1 = pid
    · rw [if_pos he] at h
      have hd : e.2 = d := Option.some.inj h
      have hpd : (pid, d) = e := by rw [← he, ← hd]
      rw [hpd]
      exact List.mem_cons_self e rest
    · rw [if_neg he] at h
      exact List.mem_cons_of_mem e (ih h)

/-- Writing through a map point rewrites its lookup. -/
theorem findMP_setMP_same (st : List (ℕ × MPData)) (pid : ℕ) (v d : MPData)
    (h : findMP st pid = some d) : findMP (setMP st pid v) pid = some v := by
  induction st with
  | nil => simp [findMP] at h
  | cons e rest ih =>
    rw [findMP] at h
    by_cases he : e.1 = pid
    · simp [setMP, findMP, he]
    · rw [if_neg he] at h
      simp only [setMP, List.map_cons, if_neg he]
      rw [findMP, if_neg he]
      exact ih h

/-- Writing through a map point leaves every other lookup unchanged. -/
theorem findMP_setMP_other (st : List (ℕ × MPData)) (pid : ℕ) (v : MPData) (q : ℕ)
    (h : q ≠ pid) : findMP (setMP st pid v) q = findMP st q := by
  induction st with
  | nil => simp [setMP, findMP]
  | cons e rest ih =>
    simp only [setMP, List.map_cons]
    by_cases he : e.1 = pid
    · rw [if_pos he]
      show findMP ((pid, v) :: setMP rest pid v) q = findMP (e :: rest) q
      rw [findMP, findMP]
      rw [if_neg (fun hh => h hh.symm), if_neg (by rw [he]; exact fun hh => h hh.symm)]
      exact ih
    · rw [if_neg he]
      show findMP (e :: setMP rest pid v) q = findMP (e :: rest) q
      rw [findMP, findMP]
      by_cases heq : e.1 = q
      · rw [if_pos heq, if_pos heq]
      · rw [if_neg heq, if_neg heq]
        exact ih

/-- Entries after a write-through: unchanged, or the written value. -/
theorem mem_setMP (st : List (ℕ × MPData)) (pid : ℕ) (v : MPData) (p : ℕ × MPData)
    (h : p ∈ setMP st pid v) : p ∈ st ∨ p = (pid, v) := by
  rcases List.mem_map.mp h with ⟨e, he, heq⟩
  by_cases hc : e.1 = pid
  · right
    rw [← heq, if_pos hc]
  · left
    rw [← heq, if_neg hc]
    exact he

/-- `correctOne` on a slot other than `q` does not change `q`'s lookup. -/
theorem correctOne_preserves_other (cid kf : ℕ) (c : Sim3) (st : List (ℕ × MPData))
    (o : Option ℕ) (q : ℕ) (h : o ≠ some q) :
    findMP (correctOne cid kf c st o) q = findMP st q := by
  cases o with
  | none => rfl
  | some pid =>
    have hpq : q ≠ pid := fun hh => h (by rw [hh])
    cases hf : findMP st pid with
    | none => simp [correctOne, hf]
    | some d =>
      by_cases hg : d.bad = true ∨ d.correctedByKF = cid
      · simp [correctOne, hf, hg]
      · simp only [correctOne, hf, if_neg hg]
        exact findMP_setMP_other st pid _ q hpq

/-- `correctOne` never touches a point already stamped with the current
keyframe id. -/
theorem correctOne_preserves_stamped (cid kf : ℕ) (c : Sim3) (st : List (ℕ × MPData))
    (o : Option ℕ) (q : ℕ) (d : MPData) (hq : findMP st q = some d)
    (hst : d.correctedByKF = cid) : findMP (correctOne cid kf c st o) q = some d := by
  by_cases ho : o = some q
  · subst ho
    simp [correctOne, hq, hst]
  · rw [correctOne_preserves_other cid kf c st o q ho]
    exact hq

/-- `correctOne` never touches a bad point. -/
theorem correctOne_preserves_bad (cid kf : ℕ) (c : Sim3) (st : List (ℕ × MPData))
    (o : Option ℕ) (q : ℕ) (d : MPData) (hq : findMP st q = some d)
    (hbad : d.bad = true) : findMP (correctOne cid kf c st o) q = some d := by
  by_cases ho : o = some q
  · subst ho
    simp [correctOne, hq, hbad]
  · rw [correctOne_preserves_other cid kf c st o q ho]
    exact hq

/-- `correctOne` on slot `q` corrects a live, unstamped point. -/
theorem correctOne_corrects (cid kf : ℕ) (c : Sim3) (st : List (ℕ × MPData))
    (q : ℕ) (d : MPData) (hq : findMP st q = some d) (hbad : d.bad = false)
    (hst : d.correctedByKF ≠ cid) :
    findMP (correctOne cid kf c st (some q)) q = some (correctedMP cid kf c d) := by
  have hg : ¬(d.bad = true ∨ d.correctedByKF = cid) := by
    rw [hbad]
    simp [hst]
  simp only [correctOne, hq, if_neg hg]
  exact findMP_setMP_same st q _ d hq

/-- Entries after `correctOne`: unchanged, or stamped by the processed
neighbor. -/
theorem mem_correctOne (cid kf : ℕ) (c : Sim3) (st : List (ℕ × MPData))
    (o : Option ℕ) (p : ℕ × MPData) (h : p ∈ correctOne cid kf c st o) :
    p ∈ st ∨ (p.2.correctedByKF = cid ∧ p.2.correctedReference = kf) := by
  cases o with
  | none => exact Or.inl h
  | some pid =>
    cases hf : findMP st pid with
    | none =>
      simp only [correctOne, hf] at h
      exact Or.inl h
    | some d =>
      simp only [correctOne, hf] at h
      by_cases hg : d.bad = true ∨ d.correctedByKF = cid
      · rw [if_pos hg] at h
        exact Or.inl h
      · rw [if_neg hg] at h
        rcases mem_setMP st pid _ p h with h1 | h1
        · exact Or.inl h1
        · right
          rw [h1]
          exact ⟨rfl, rfl⟩

/-- The fold of `correctOne` over a slot list not containing `q` preserves
`q`'s lookup. -/
theorem foldCorrectOne_preserves_other (cid kf : ℕ) (c : Sim3) (os : List (Option ℕ)) :
    ∀ (st : List (ℕ × MPData)) (q : ℕ), some q ∉ os →
      findMP (os.foldl (correctOne cid kf c) st) q = findMP st q := by
  induction os with
  | nil =>
    intro st q _
    rfl
  | cons o t ih =>
    intro st q hq
    rw [List.foldl_cons, ih _ q (fun hh => hq (List.mem_cons_of_mem o hh))]
    exact correctOne_preserves_other cid kf c st o q
      (fun hh => hq (by rw [hh]; exact List.mem_cons_self _ t))

/-- The fold of `correctOne` preserves points already stamped with the
current keyframe id. -/
theorem foldCorrectOne_preserves_stamped (cid kf : ℕ) (c : Sim3) (os : List (Option ℕ)) :
    ∀ (st : List (ℕ × MPData)) (q : ℕ) (d : MPData), findMP st q = some d →
      d.correctedByKF = cid →
      findMP (os.foldl (correctOne cid kf c) st) q = some d := by
  induction os with
  | nil =>
    intro st q d hq _
    exact hq
  | cons o t ih =>
    intro st q d hq hst
    rw [List.foldl_cons]
    exact ih _ q d (correctOne_preserves_stamped cid kf c st o q d hq hst) hst

/-- The fold of `correctOne` preserves bad points. -/
theorem foldCorrectOne_preserves_bad (cid kf : ℕ) (c : Sim3) (os : List (Option ℕ)) :
    ∀ (st : List (ℕ × MPData)) (q : ℕ) (d : MPData), findMP st q = some d →
      d.bad = true →
      findMP (os.foldl (correctOne cid kf c) st) q = some d := by
  induction os with
  | nil =>
    intro st q d hq _
    exact hq
  | cons o t ih =>
    intro st q d hq hbad
    rw [List.foldl_cons]
    exact ih _ q d (correctOne_preserves_bad cid kf c st o q d hq hbad) hbad

/-- The fold of `correctOne` over a slot list containing `q` corrects a
live, unstamped point exactly once. -/
theorem foldCorrectOne_corrects (cid kf : ℕ) (c : Sim3) (os : List (Option ℕ)) :
    ∀ (st : List (ℕ × MPData)) (q : ℕ) (d : MPData), findMP st q = some d →
      d.bad = false → d.correctedByKF ≠ cid → some q ∈ os →
      findMP (os.foldl (correctOne cid kf c) st) q = some (correctedMP cid kf c d) := by
  induction os with
  | nil =>
    intro st q d _ _ _ hmem
    simp at hmem
  | cons o t ih =>
    intro st q d hq hbad hst hmem
    rw [List.foldl_cons]
    by_cases ho : o = some q
    · subst ho
      have hcorr := correctOne_corrects cid kf c st q d hq hbad hst
      exact foldCorrectOne_preserves_stamped cid kf c t _ q _ hcorr rfl
    · rw [List.mem_cons] at hmem
      rcases hmem with h | h
      · exact absurd h.symm ho
      · exact ih _ q d
          (by rw [correctOne_preserves_other cid kf c st o q (fun hh => ho hh)]; exact hq)
          hbad hst h

/-- Entries after the fold of `correctOne`: unchanged, or stamped by the
processed neighbor. -/
theorem mem_foldCorrectOne (cid kf : ℕ) (c : Sim3) (os : List (Option ℕ)) :
    ∀ (st : List (ℕ × MPData)) (p : ℕ × MPData),
      p ∈ os.foldl (correctOne cid kf c) st →
      p ∈ st ∨ (p.2.correctedByKF = cid ∧ p.2.correctedReference = kf) := by
  induction os with
  | nil =>
    intro st p h
    exact Or.inl h
  | cons o t ih =>
    intro st p h
    rw [List.foldl_cons] at h
    rcases ih _ p h with h1 | h1
    · exact mem_correctOne cid kf c st o p h1
    · exact Or.inr h1

/-- The map-point pass preserves points already stamped with the current
keyframe id. -/
theorem correctMapPoints_preserves_stamped (cid : ℕ) (nonCorr : ℕ → Sim3)
    (obs : ℕ → List (Option ℕ)) (entries : List (ℕ × Sim3)) :
    ∀ (st : List (ℕ × MPData)) (q : ℕ) (d : MPData), findMP st q = some d →
      d.correctedByKF = cid →
      findMP (correctMapPoints cid nonCorr obs entries st) q = some d := by
  induction entries with
  | nil =>
    intro st q d hq _
    exact hq
  | cons e t ih =>
    intro st q d hq hst
    rw [correctMapPoints, List.foldl_cons]
    exact ih _ q d (foldCorrectOne_preserves_stamped cid e.1 _ (obs e.1) st q d hq hst) hst

/-- The map-point pass preserves bad points. -/
theorem correctMapPoints_preserves_bad (cid : ℕ) (nonCorr : ℕ → Sim3)
    (obs : ℕ → List (Option ℕ)) (entries : List (ℕ × Sim3)) :
    ∀ (st : List (ℕ × MPData)) (q : ℕ) (d : MPData), findMP st q = some d →
      d.bad = true →
      findMP (correctMapPoints cid nonCorr obs entries st) q = some d := by
  induction entries with
  | nil =>
    intro st q d hq _
    exact hq
  | cons e t ih =>
    intro st q d hq hbad
    rw [correctMapPoints, List.foldl_cons]
    exact ih _ q d (foldCorrectOne_preserves_bad cid e.1 _ (obs e.1) st q d hq hbad) hbad

/-- The map-point pass leaves points observed by no processed neighbor
unchanged. -/
theorem correctMapPoints_preserves_unobserved (cid : ℕ) (nonCorr : ℕ → Sim3)
    (obs : ℕ → List (Option ℕ)) (entries : List (ℕ × Sim3)) :
    ∀ (st : List (ℕ × MPData)) (q : ℕ), (∀ e ∈ entries, some q ∉ obs e.1) →
      findMP (correctMapPoints cid nonCorr obs entries st) q = findMP st q := by
  induction entries with
  | nil =>
    intro st q _
    rfl
  | cons e t ih =>
    intro st q hobs
    rw [correctMapPoints, List.foldl_cons]
    rw [show (t.foldl (correctNeighborPoints cid nonCorr obs)
        (correctNeighborPoints cid nonCorr obs st e)) =
      correctMapPoints cid nonCorr obs t (correctNeighborPoints cid nonCorr obs st e)
      from rfl]
    rw [ih _ q (fun x hx => hobs x (List.mem_cons_of_mem e hx))]
    exact foldCorrectOne_preserves_other cid e.1 _ (obs e.1) st q
      (hobs e (List.mem_cons_self e t))

/-- The map-point pass corrects every live, unstamped point observed by
some processed neighbor: the position is rewritten through that neighbor's
`CorrectedSwi * Siw`, the point is stamped with the current keyframe id and
that neighbor's id, and its normal/depth recomputation is triggered. -/
theorem correctMapPoints_corrects (cid : ℕ) (nonCorr : ℕ → Sim3)
    (obs : ℕ → List (Option ℕ)) (entries : List (ℕ × Sim3)) :
    ∀ (st : List (ℕ × MPData)) (q : ℕ) (d : MPData), findMP st q = some d →
      d.bad = false → d.correctedByKF ≠ cid →
      (∃ e ∈ entries, some q ∈ obs e.1) →
      ∃ e ∈ entries, some q ∈ obs e.1 ∧
        findMP (correctMapPoints cid nonCorr obs entries st) q =
          some (correctedMP cid e.1 ((e.2.Inverse).mul (nonCorr e.1)) d) := by
  induction entries with
  | nil =>
    intro st q d _ _ _ hex
    simp at hex
  | cons e t ih =>
    intro st q d hq hbad hst hex
    by_cases hoe : some q ∈ obs e.1
    · refine ⟨e, List.mem_cons_self e t, hoe, ?_⟩
      rw [correctMapPoints, List.foldl_cons]
      have hcorr := foldCorrectOne_corrects cid e.1 ((e.2.Inverse).mul (nonCorr e.1))
        (obs e.1) st q d hq hbad hst hoe
      exact correctMapPoints_preserves_stamped cid nonCorr obs t _ q _ hcorr rfl
    · rcases hex with ⟨x, hx, hqx⟩
      rcases List.mem_cons.mp hx with h1 | h1
      · rw [h1] at hqx
        exact absurd hqx hoe
      · have hq2 : findMP (correctNeighborPoints cid nonCorr obs st e) q = some d := by
          rw [correctNeighborPoints]
          rw [foldCorrectOne_preserves_other cid e.1 _ (obs e.1) st q hoe]
          exact hq
        rcases ih _ q d hq2 hbad hst ⟨x, h1, hqx⟩ with ⟨y, hy, hqy, hres⟩
        exact ⟨y, List.mem_cons_of_mem e hy, hqy, hres⟩

/-- Entries after the map-point pass: unchanged, or stamped with the id of
one processed neighbor. -/
theorem mem_correctMapPoints (cid : ℕ) (nonCorr : ℕ → Sim3)
    (obs : ℕ → List (Option ℕ)) (entries : List (ℕ × Sim3)) :
    ∀ (st : List (ℕ × MPData)) (p : ℕ × MPData),
      p ∈ correctMapPoints cid nonCorr obs entries st →
      p ∈ st ∨ ∃ e ∈ entries, p.2.correctedByKF = cid ∧ p.2.correctedReference = e.1 := by
  induction entries with
  | nil =>
    intro st p h
    exact Or.inl h
  | cons e t ih =>
    intro st p h
    rw [correctMapPoints, List.foldl_cons] at h
    rcases ih _ p h with h1 | h1
    · rcases mem_foldCorrectOne cid e.1 _ (obs e.1) st p h1 with h2 | h2
      · exact Or.inl h2
      · exact Or.inr ⟨e, List.mem_cons_self e t, h2⟩
    · rcases h1 with ⟨y, hy, h2⟩
      exact Or.inr ⟨y, List.mem_cons_of_mem e hy, h2⟩

/-- C5: in `Correct`'s map-point pass over the `CorrectedSim3` entries, a
live map point not yet stamped with the current keyframe id that is
observed by some corrected neighbor has its world position rewritten as
`(CorrectedSwi * Siw)` applied to its old position by the first such
neighbor, is stamped `correctedByKF = currentKF.id` and
`correctedReference = N.id`, and its normal-and-depth recomputation is
triggered; bad points and points observed by no corrected neighbor are
untouched; and afterwards every store entry stamped with the current
keyframe id carries as its (unique) `correctedReference` the id of one of
the corrected neighbors. -/
theorem loopCorrector_map_point_correction_spec (cid : ℕ) (nonCorr : ℕ → Sim3)
    (obs : ℕ → List (Option ℕ)) (entries : List (ℕ × Sim3))
    (st : List (ℕ × MPData))
    (hfresh : ∀ p ∈ st, (p.2).correctedByKF ≠ cid) :
    (∀ q d, findMP st q = some d → d.bad = false →
      (∃ e ∈ entries, some q ∈ obs e.1) →
      ∃ e ∈ entries, some q ∈ obs e.1 ∧
        findMP (correctMapPoints cid nonCorr obs entries st) q =
          some (correctedMP cid e.1 ((e.2.Inverse).mul (nonCorr e.1)) d)) ∧
    (∀ q d, findMP st q = some d → d.bad = true →
      findMP (correctMapPoints cid nonCorr obs entries st) q = some d) ∧
    (∀ q, (∀ e ∈ entries, some q ∉ obs e.1) →
      findMP (correctMapPoints cid nonCorr obs entries st) q = findMP st q) ∧
    (∀ p ∈ correctMapPoints cid nonCorr obs entries st, (p.2).correctedByKF = cid →
      ∃ e ∈ entries, (p.2).correctedReference = e.1) := by
  refine ⟨?_, ?_, ?_, ?_⟩
  · intro q d hq hbad hex
    exact correctMapPoints_corrects cid nonCorr obs entries st q d hq hbad
      (hfresh (q, d) (findMP_mem st q d hq)) hex
  · intro q d hq hbad
    exact correctMapPoints_preserves_bad cid nonCorr obs entries st q d hq hbad
  · intro q hobs
    exact correctMapPoints_preserves_unobserved cid nonCorr obs entries st q hobs
  · intro p hp hstamp
    rcases mem_correctMapPoints cid nonCorr obs entries st p hp with h | h
    · exact absurd hstamp (hfresh p h)
    · rcases h with ⟨e, he, h2⟩
      exact ⟨e, he, h2.2⟩

/-- Witness for C5: a concrete two-point store (one live point observed by
neighbor 7, one bad point), corrected for current keyframe 9 with identity
transforms: the live point is corrected and stamped by neighbor 7, the bad
point is untouched. -/
theorem loopCorrector_map_point_correction_witness :
    findMP (correctMapPoints 9 (fun _ => Sim3.idSim)
        (fun k => if k = 7 then [some 1, some 2] else [])
        [(7, Sim3.idSim)]
        [(1, ⟨⟨1, 2, 3⟩, false, 0, 0, false⟩), (2, ⟨⟨4, 5, 6⟩, true, 0, 0, false⟩)]) 1 =
      some (correctedMP 9 7 ((Sim3.idSim.Inverse).mul Sim3.idSim)
        ⟨⟨1, 2, 3⟩, false, 0, 0, false⟩) ∧
    findMP (correctMapPoints 9 (fun _ => Sim3.idSim)
        (fun k => if k = 7 then [some 1, some 2] else [])
        [(7, Sim3.idSim)]
        [(1, ⟨⟨1, 2, 3⟩, false, 0, 0, false⟩), (2, ⟨⟨4, 5, 6⟩, true, 0, 0, false⟩)]) 2 =
      some ⟨⟨4, 5, 6⟩, true, 0, 0, false⟩ := by
  have h := loopCorrector_map_point_correction_spec 9 (fun _ => Sim3.idSim)
    (fun k => if k = 7 then [some 1, some 2] else [])
    [(7, Sim3.idSim)]
    [(1, ⟨⟨1, 2, 3⟩, false, 0, 0, false⟩), (2, ⟨⟨4, 5, 6⟩, true, 0, 0, false⟩)]
    (by decide)
  constructor
  · rcases h.1 1 ⟨⟨1, 2, 3⟩, false, 0, 0, false⟩ (by decide) rfl
      ⟨(7, Sim3.idSim), by decide, by decide⟩ with ⟨e, he, _, hres⟩
    have he7 : e = (7, Sim3.idSim) := by
      rcases List.mem_singleton.mp he with h
      exact h
    rw [hres, he7]
  · exact h.2.1 2 ⟨⟨4, 5, 6⟩, true, 0, 0, false⟩ (by decide) rfl

end ORBSLAM2
